import Mathlib

/-!
Verification of the options-parser configuration resolver (`src/OptionsParser.mjs`).

The JavaScript class `OptionsParser` owns a nested configuration object and a
lazily computed flattened view of it, and resolves values from three sources
(configuration file, environment variables, command-line arguments) before
verifying that no option is left unset (empty string sentinel).

This file gives a shallow embedding of that class:
  * nested configuration objects become `JTree` (assoc lists of string keys),
  * leaf values become `JValue` (string or number scalars),
  * the mutable instance state becomes the `OptionsParser` structure threaded
    explicitly through each operation,
  * a thrown JavaScript exception becomes `Option.none` (module code runs in
    strict mode, so assigning a property of `undefined` or of a primitive
    throws a `TypeError`),
  * the external effects (the YAML file read, `process.env`, the parsed
    argument vector) become explicit parameters (`FileResult`, lookup
    functions).

JavaScript prototype-chain property inheritance is not modelled: property
lookup on an object is lookup among its own entries, which is what holds for
all keys produced by flattening plain configuration objects.
-/

namespace OptionsParserModel

/-- A scalar leaf value of a configuration (string or number; the source
treats values opaquely and only ever compares them against the empty-string
sentinel `''`, which only a string can equal). -/
inductive JValue where
  | vstr (s : String)
  | vnum (n : Int)
deriving DecidableEq

/-- A nested configuration object: either a scalar leaf or an object node
whose own enumerable properties are an ordered association list (JavaScript
objects preserve insertion order and have no duplicate keys). -/
inductive JTree where
  | leaf (v : JValue)
  | node (es : List (String × JTree))

/-- Property lookup among an object's own entries (`obj[k]`, first match). -/
def getEntry {α : Type} : List (String × α) → String → Option α
  | [], _ => none
  | (k, v) :: rest, s => if k = s then some v else getEntry rest s

/-- Property assignment `obj[k] = v`: overwrite in place if the key exists,
otherwise append a new entry (JavaScript insertion-order semantics). -/
def setEntry {α : Type} : List (String × α) → String → α → List (String × α)
  | [], k, v => [(k, v)]
  | (k', v') :: rest, k, v =>
    if k' = k then (k, v) :: rest else (k', v') :: setEntry rest k v

/-- Apply `f` to the value of the first entry with key `s`, if present. -/
def updateEntry {α : Type} : List (String × α) → String → (α → α) → List (String × α)
  | [], _, _ => []
  | (k, v) :: rest, s, f =>
    if k = s then (k, f v) :: rest else (k, v) :: updateEntry rest s f

/-- Character-level embedding of JavaScript `str.split('.')`: splitting at
every occurrence of `'.'`, keeping empty pieces (`""` splits to `[""]`). -/
def dotSplitChars : List Char → List (List Char)
  | [] => [[]]
  | c :: cs =>
    if c = '.' then [] :: dotSplitChars cs
    else
      match dotSplitChars cs with
      | [] => [[c]]
      | h :: t => (c :: h) :: t

/-- Embedding of `flattened_object_key.split('.')`. -/
def dotSplit (s : String) : List String :=
  (dotSplitChars s.data).map String.mk

/-- Character-level embedding of joining with `'.'` (`segments.join('.')`). -/
def dotJoinChars : List (List Char) → List Char
  | [] => []
  | [l] => l
  | l :: ls => l ++ '.' :: dotJoinChars ls

/-- Join path segments with `'.'` into a flattened key. -/
def dotJoin (ss : List String) : String :=
  String.mk (dotJoinChars (ss.map String.data))

mutual
/-- Modelled from the spec: the external `flatten` helper
(`vph_js_utils/vph-utils.mjs`, not part of this repository) at the level of
segment paths — "for every leaf reachable from `tree`, emits one entry keyed
by the path of segments from root to that leaf; non-leaf nodes are never
emitted; order of key enumeration is insertion order of the traversal". -/
def flattenT : JTree → List (List String × JValue)
  | .leaf v => [([], v)]
  | .node es => flattenEs es
/-- Modelled from the spec: segment-path flattening of an object's entry
list, in insertion order. -/
def flattenEs : List (String × JTree) → List (List String × JValue)
  | [] => []
  | (k, t) :: rest => (flattenT t).map (fun pv => (k :: pv.1, pv.2)) ++ flattenEs rest
end

/-- Modelled from the spec: the external `flatten` applied to a configuration
object — "a mapping from dotted-path key to leaf value", the dotted key being
the segments joined with `.`. -/
def flatten (es : List (String × JTree)) : List (String × JValue) :=
  (flattenEs es).map (fun pv => (dotJoin pv.1, pv.2))

/-- Walk a tree through a list of path segments, as the loop in
`_config_path` walks `config_section = config_section[path_segment]`;
`none` models reaching `undefined` or indexing into a primitive. -/
def walk : JTree → List String → Option JTree
  | t, [] => some t
  | .node es, s :: rest => (getEntry es s).bind (fun t' => walk t' rest)
  | .leaf _, _ :: _ => none

mutual
/-- Functional update of a tree at `path ++ [k]` with leaf value `v`,
modelling `config_section[key] = value` after `_config_path` resolved
`config_section` by walking `path`. Unreachable shapes (a leaf met on the
path) are returned unchanged; `set_option` only calls this after `walk`
found an object node. -/
def setAt : JTree → List String → String → JValue → JTree
  | .node es, [], k, v => .node (setEntry es k (.leaf v))
  | .node es, s :: rest, k, v => .node (setAtEs es s rest k v)
  | t, _, _, _ => t
/-- Update the first entry named `s` of an entry list at the remaining path. -/
def setAtEs : List (String × JTree) → String → List String → String → JValue → List (String × JTree)
  | [], _, _, _, _ => []
  | (k0, t0) :: es, s, rest, k, v =>
    if k0 = s then (k0, setAt t0 rest k v) :: es
    else (k0, t0) :: setAtEs es s rest k v
end

/-- The instance state of an `OptionsParser`:
`config` is `this._config`'s top-level entries (the constructor receives an
object), `flattened` is `this._flattened_config` (`none` models `undefined`
before the first access of the getter), `env_pfx` is `this.env_prefix`, and
`config_file_path` is `this.config_file_path`. `this.config_help` only feeds
argument help text and plays no role in the resolved values, so it is not
carried. -/
structure OptionsParser where
  config : List (String × JTree)
  flattened : Option (List (String × JValue))
  env_pfx : String
  config_file_path : String

/-- The `flattened_config` getter: return the cached flattened view,
computing and caching `flatten(this._config)` on first access. -/
def flattened_config (p : OptionsParser) : List (String × JValue) × OptionsParser :=
  match p.flattened with
  | some f => (f, p)
  | none =>
    let f := flatten p.config
    (f, { p with flattened := some f })

/-- `_set_option(flattened_key, value)`: resolve the key to its parent
section and final segment via `_config_path` (split on `'.'`, walk all but
the last segment), write the value into the nested tree, then write it into
the flattened view obtained from the `flattened_config` getter.
`none` models the `TypeError` thrown (in strict mode) when the walked parent
is `undefined` or a primitive rather than an object; in that case nothing
has been written to either view. -/
def set_opt (p : OptionsParser) (fk : String) (v : JValue) : Option OptionsParser :=
  let segs := dotSplit fk
  let inters := segs.dropLast
  let key := segs.getLastD ""
  match walk (.node p.config) inters with
  | some (.node _) =>
    let root := setAt (.node p.config) inters key v
    let p1 : OptionsParser :=
      { p with config := match root with | .node es => es | .leaf _ => p.config }
    let (f, p2) := flattened_config p1
    some { p2 with flattened := some (setEntry f fk v) }
  | _ => none

/-- The outcome of `yaml.readSync(this.config_file_path)`:
`err` — the call threw (file absent, unreadable, or YAML parse failure);
`empty` — it returned `undefined` (e.g. an empty file);
`doc es` — it returned a document object with entries `es`. -/
inductive FileResult where
  | err
  | empty
  | doc (es : List (String × JTree))

/-- The loop of `_read_config_file` over `Object.entries(flatten(file_config))`:
skip pairs whose value is `''`, apply the rest via `_set_option`. A thrown
lookup failure is caught by the surrounding `try`/`catch`, which warns and
abandons the remaining pairs, keeping all mutations made so far. The returned
Bool records whether a warning was printed. -/
def applyFilePairs : OptionsParser → List (String × JValue) → OptionsParser × Bool
  | p, [] => (p, false)
  | p, (k, v) :: rest =>
    if v = JValue.vstr "" then applyFilePairs p rest
    else
      match set_opt p k v with
      | some p' => applyFilePairs p' rest
      | none => (p, true)

/-- `_read_config_file()`: read the YAML file; if the read threw, catch and
warn; if the document is `undefined`, return immediately; otherwise flatten
the document and apply its non-empty pairs. -/
def read_config_file (p : OptionsParser) (fr : FileResult) : OptionsParser × Bool :=
  match fr with
  | .err => (p, true)
  | .empty => (p, false)
  | .doc es => applyFilePairs p (flatten es)

/-- The environment variable name
`` `${this.env_prefix}_${flattened_key.replace(/\./g, '_').toUpperCase()}` ``:
every `'.'` becomes `'_'` and the key is upper-cased. -/
def envVarName (pfx k : String) : String :=
  pfx ++ "_" ++ String.mk (k.data.map (fun c => (if c = '.' then '_' else c).toUpper))

/-- `_read_environment()`: iterate `Object.keys(this._config)` — the
TOP-LEVEL keys of the nested configuration, not the flattened keys (the
source's own `TODO: Those keys are not flattened?`) — and for each key whose
environment variable is defined, apply it via `_set_option`. `env` is the
`process.env` lookup. `none` models an uncaught `_set_option` throw. -/
def read_environment (p : OptionsParser) (env : String → Option String) : Option OptionsParser :=
  (p.config.map Prod.fst).foldlM
    (fun q k =>
      match env (envVarName q.env_pfx k) with
      | none => some q
      | some v => set_opt q k (.vstr v))
    p

/-- `_read_args()`: the generated argument parser declares one option per key
of the current `flattened_config`, with `dest` set to the dotted key itself,
so `Object.entries(args)` enumerates exactly those keys in order, each mapped
to its parsed value or `null`. `argv` gives the parsed value per destination
key (`none` = `null`, the flag was absent). Pairs with `null` are skipped,
the rest applied via `_set_option`. -/
def read_args (p : OptionsParser) (argv : String → Option String) : Option OptionsParser :=
  let (f, p1) := flattened_config p
  (f.map Prod.fst).foldlM
    (fun q k =>
      match argv k with
      | none => some q
      | some v => set_opt q k (.vstr v))
    p1

/-- `_verify_config()`: walk `Object.entries(this.flattened_config)`, warn
`` `${key} is empty.` `` for every entry whose value is `''` and clear the
`config_ok` flag. Returns the state (the getter may cache), the flag, and the
ordered warnings. -/
def verify_config (p : OptionsParser) : OptionsParser × Bool × List String :=
  let (f, p1) := flattened_config p
  let r := f.foldl
    (fun (acc : Bool × List String) kv =>
      if kv.2 = JValue.vstr "" then (false, acc.2 ++ [kv.1 ++ " is empty."]) else acc)
    (true, ([] : List String))
  (p1, r.1, r.2)

/-- `read()`: file step, then environment step, then argument step, then
verification; returns the final state with the verifier's boolean and
warnings. `none` models an uncaught exception escaping `read()`. -/
def read (p : OptionsParser) (fr : FileResult) (env argv : String → Option String) :
    Option (OptionsParser × Bool × List String) :=
  let pf := (read_config_file p fr).1
  match read_environment pf env with
  | none => none
  | some pe =>
    match read_args pe argv with
    | none => none
    | some pa => some (verify_config pa)

mutual
/-- Well-formedness of a configuration tree as produced from a plain
JavaScript object literal: at every node, keys are pairwise distinct and
contain no `'.'` (so that dotted flattened keys split back into the original
segments). -/
def wfT : JTree → Bool
  | .leaf _ => true
  | .node es => wfEs es
/-- Well-formedness of an entry list (see `wfT`). -/
def wfEs : List (String × JTree) → Bool
  | [] => true
  | (k, t) :: rest =>
    !(decide ('.' ∈ k.data)) && !(decide (k ∈ rest.map Prod.fst)) && wfT t && wfEs rest
end

/-! ### Lemmas about splitting and joining dotted keys -/

theorem dotSplitChars_ne_nil (cs : List Char) : dotSplitChars cs ≠ [] := by
  induction cs with
  | nil => simp [dotSplitChars]
  | cons c cs ih =>
    unfold dotSplitChars
    split
    · simp
    · split <;> simp

theorem dotSplitChars_noDot {cs : List Char} (h : '.' ∉ cs) : dotSplitChars cs = [cs] := by
  induction cs with
  | nil => rfl
  | cons c cs ih =>
    have hc : ¬ c = '.' := fun e => h (by simp [e])
    have hcs : '.' ∉ cs := fun m => h (List.mem_cons_of_mem _ m)
    unfold dotSplitChars
    rw [if_neg hc, ih hcs]

theorem dotSplitChars_append {l rest : List Char} (h : '.' ∉ l) :
    dotSplitChars (l ++ '.' :: rest) = l :: dotSplitChars rest := by
  induction l with
  | nil => simp [dotSplitChars]
  | cons c l ih =>
    have hc : ¬ c = '.' := fun e => h (by simp [e])
    have hl : '.' ∉ l := fun m => h (List.mem_cons_of_mem _ m)
    rw [List.cons_append]
    simp only [dotSplitChars]
    rw [if_neg hc, ih hl]

theorem dotSplitChars_dotJoinChars {ls : List (List Char)} (hne : ls ≠ [])
    (h : ∀ l ∈ ls, '.' ∉ l) : dotSplitChars (dotJoinChars ls) = ls := by
  induction ls with
  | nil => exact absurd rfl hne
  | cons l ls ih =>
    cases ls with
    | nil => exact dotSplitChars_noDot (h l (List.mem_cons_self _ _))
    | cons l2 ls2 =>
      rw [show dotJoinChars (l :: l2 :: ls2) = l ++ '.' :: dotJoinChars (l2 :: ls2) from rfl]
      rw [dotSplitChars_append (h l (List.mem_cons_self _ _))]
      rw [ih (by simp) (fun x hx => h x (List.mem_cons_of_mem _ hx))]

theorem dotSplit_noDot {s : String} (h : '.' ∉ s.data) : dotSplit s = [s] := by
  unfold dotSplit
  rw [dotSplitChars_noDot h]
  rfl

theorem dotSplit_dotJoin {segs : List String} (hne : segs ≠ [])
    (h : ∀ s ∈ segs, '.' ∉ s.data) : dotSplit (dotJoin segs) = segs := by
  unfold dotSplit dotJoin
  rw [show (String.mk (dotJoinChars (segs.map String.data))).data
        = dotJoinChars (segs.map String.data) from rfl]
  rw [dotSplitChars_dotJoinChars (by simpa using hne)
        (fun l hl => by rcases List.mem_map.mp hl with ⟨s, hs, rfl⟩; exact h s hs)]
  rw [List.map_map]
  conv_lhs => rw [show (String.mk ∘ String.data) = id from funext fun s => rfl]
  exact List.map_id segs

/-! ### Lemmas about association-list entries -/

theorem setEntry_map_fst_of_mem {α : Type} {es : List (String × α)} {k : String} {v : α}
    (h : k ∈ es.map Prod.fst) : (setEntry es k v).map Prod.fst = es.map Prod.fst := by
  induction es with
  | nil => simp at h
  | cons e es ih =>
    obtain ⟨k0, v0⟩ := e
    unfold setEntry
    by_cases hk : k0 = k
    · subst hk; simp
    · rw [if_neg hk]
      have h' : k ∈ es.map Prod.fst := by
        rw [List.map_cons, List.mem_cons] at h
        rcases h with h1 | h2
        · exact absurd h1.symm hk
        · exact h2
      simp only [List.map_cons]
      rw [ih h']

theorem wfEs_cons {k : String} {t : JTree} {es : List (String × JTree)}
    (hwf : wfEs ((k, t) :: es) = true) :
    '.' ∉ k.data ∧ k ∉ es.map Prod.fst ∧ wfT t = true ∧ wfEs es = true := by
  have h := hwf
  unfold wfEs at h
  simp only [Bool.and_eq_true, Bool.not_eq_true', decide_eq_false_iff_not] at h
  exact ⟨h.1.1.1, h.1.1.2, h.1.2, h.2⟩

theorem getEntry_eq_of_mem_wf {es : List (String × JTree)} {k : String} {t : JTree}
    (hwf : wfEs es = true) (hm : (k, t) ∈ es) : getEntry es k = some t := by
  induction es with
  | nil => simp at hm
  | cons e es ih =>
    obtain ⟨k0, t0⟩ := e
    obtain ⟨hdot, hnodup, hwt, hwes⟩ := wfEs_cons hwf
    unfold getEntry
    rcases List.mem_cons.mp hm with h1 | h2
    · obtain ⟨hk, ht⟩ := Prod.mk.injEq .. ▸ h1
      subst hk; subst ht
      rw [if_pos rfl]
    · by_cases hk : k0 = k
      · subst hk
        exact absurd (List.mem_map_of_mem Prod.fst h2) hnodup
      · rw [if_neg hk]
        exact ih hwes h2

theorem wf_of_mem {es : List (String × JTree)} {k : String} {t : JTree}
    (hwf : wfEs es = true) (hm : (k, t) ∈ es) : wfT t = true ∧ '.' ∉ k.data := by
  induction es with
  | nil => simp at hm
  | cons e es ih =>
    obtain ⟨k0, t0⟩ := e
    obtain ⟨hdot, hnodup, hwt, hwes⟩ := wfEs_cons hwf
    rcases List.mem_cons.mp hm with h1 | h2
    · obtain ⟨hk, ht⟩ := Prod.mk.injEq .. ▸ h1
      subst hk; subst ht
      exact ⟨hwt, hdot⟩
    · exact ih hwes h2

/-! ### Lemmas about flattening -/

theorem mem_flattenEs {es : List (String × JTree)} {segs : List String} {v : JValue} :
    (segs, v) ∈ flattenEs es ↔
      ∃ k t rest, (k, t) ∈ es ∧ segs = k :: rest ∧ (rest, v) ∈ flattenT t := by
  induction es with
  | nil => simp [flattenEs]
  | cons e es ih =>
    obtain ⟨k0, t0⟩ := e
    constructor
    · intro h
      simp only [flattenEs] at h
      rcases List.mem_append.mp h with h1 | h2
      · rcases List.mem_map.mp h1 with ⟨⟨rest, v'⟩, hmem, heq⟩
        obtain ⟨hs, hv⟩ := Prod.mk.injEq .. ▸ heq
        exact ⟨k0, t0, rest, List.mem_cons_self _ _, hs.symm, hv ▸ hmem⟩
      · rcases ih.mp h2 with ⟨k, t, rest, hm, hseg, hmt⟩
        exact ⟨k, t, rest, List.mem_cons_of_mem _ hm, hseg, hmt⟩
    · rintro ⟨k, t, rest, hm, hseg, hmt⟩
      simp only [flattenEs]
      rcases List.mem_cons.mp hm with h1 | h2
      · obtain ⟨hk, ht⟩ := Prod.mk.injEq .. ▸ h1
        subst hk; subst ht
        exact List.mem_append.mpr (Or.inl (List.mem_map.mpr ⟨(rest, v), hmt, by rw [hseg]⟩))
      · exact List.mem_append.mpr (Or.inr (ih.mpr ⟨k, t, rest, h2, hseg, hmt⟩))

theorem mem_flattenT_nil {t : JTree} {v : JValue} :
    (([] : List String), v) ∈ flattenT t ↔ t = JTree.leaf v := by
  cases t with
  | leaf v0 =>
    constructor
    · intro h
      simp only [flattenT, List.mem_singleton] at h
      obtain ⟨-, hv⟩ := Prod.mk.injEq .. ▸ h
      rw [hv]
    · intro h
      injection h with hv
      subst hv
      simp [flattenT]
  | node es =>
    simp only [flattenT]
    constructor
    · intro h
      rcases mem_flattenEs.mp h with ⟨k, t', rest, _, hseg, _⟩
      exact absurd hseg (by simp)
    · intro h
      exact absurd h (by simp)

theorem mem_flattenT_node {t : JTree} {segs : List String} {v : JValue}
    (h : (segs, v) ∈ flattenT t) (hne : segs ≠ []) :
    ∃ es, t = JTree.node es ∧ (segs, v) ∈ flattenEs es := by
  cases t with
  | leaf v0 =>
    simp only [flattenT, List.mem_singleton] at h
    obtain ⟨hs, -⟩ := Prod.mk.injEq .. ▸ h
    exact absurd hs hne
  | node es => exact ⟨es, rfl, h⟩

theorem noDot_of_mem_flattenEs {segs : List String} :
    ∀ {es : List (String × JTree)} {v : JValue}, wfEs es = true →
    (segs, v) ∈ flattenEs es → ∀ s ∈ segs, '.' ∉ s.data := by
  induction segs with
  | nil => intro es v _ _ s hs; simp at hs
  | cons k rest ih =>
    intro es v hwf h s hs
    rcases mem_flattenEs.mp h with ⟨k', t, rest', hm, hseg, hmt⟩
    obtain ⟨hk, hrest⟩ := List.cons.injEq .. ▸ hseg
    subst hk; subst hrest
    rcases List.mem_cons.mp hs with h1 | h2
    · subst h1
      exact (wf_of_mem hwf hm).2
    · have hne : rest ≠ [] := by intro e; rw [e] at h2; simp at h2
      rcases mem_flattenT_node hmt hne with ⟨es2, ht, hmt2⟩
      have hwt := (wf_of_mem hwf hm).1
      rw [ht] at hwt
      unfold wfT at hwt
      exact ih hwt hmt2 s h2

/-! ### Resolution and update along an existing leaf path -/

theorem walk_dropLast_of_mem {segs : List String} :
    ∀ {es : List (String × JTree)} {v : JValue}, wfEs es = true →
    (segs, v) ∈ flattenEs es →
    ∃ es', walk (JTree.node es) segs.dropLast = some (JTree.node es') := by
  induction segs with
  | nil =>
    intro es v _ h
    rcases mem_flattenEs.mp h with ⟨k, t, rest, -, hseg, -⟩
    exact absurd hseg (by simp)
  | cons k rest ih =>
    intro es v hwf h
    rcases mem_flattenEs.mp h with ⟨k', t, rest', hm, hseg, hmt⟩
    obtain ⟨hk, hrest⟩ := List.cons.injEq .. ▸ hseg
    subst hk; subst hrest
    cases rest with
    | nil => exact ⟨es, by simp [walk]⟩
    | cons r rs =>
      have hne : (r :: rs : List String) ≠ [] := by simp
      rcases mem_flattenT_node hmt hne with ⟨es2, ht, hmt2⟩
      have hwt := (wf_of_mem hwf hm).1
      rw [ht] at hwt
      unfold wfT at hwt
      rcases ih hwt hmt2 with ⟨es', hwalk⟩
      refine ⟨es', ?_⟩
      rw [List.dropLast_cons₂]
      show (getEntry es k).bind (fun t' => walk t' (r :: rs).dropLast) = some (JTree.node es')
      rw [getEntry_eq_of_mem_wf hwf hm, ht]
      simpa using hwalk

theorem map_fst_map_consKey {k0 : String} {L1 L2 : List (List String × JValue)}
    (h : L1.map Prod.fst = L2.map Prod.fst) :
    (L1.map (fun pv => (k0 :: pv.1, pv.2))).map Prod.fst
      = (L2.map (fun pv => (k0 :: pv.1, pv.2))).map Prod.fst := by
  have h2 := congrArg (List.map (fun s : List String => k0 :: s)) h
  simp only [List.map_map, Function.comp] at h2 ⊢
  exact h2

theorem flattenEs_setEntry_leaf {es : List (String × JTree)} {k : String} {v0 v : JValue}
    (hwf : wfEs es = true) (hm : (k, JTree.leaf v0) ∈ es) :
    (flattenEs (setEntry es k (JTree.leaf v))).map Prod.fst
      = (flattenEs es).map Prod.fst := by
  induction es with
  | nil => simp at hm
  | cons e es ih =>
    obtain ⟨k0, t0⟩ := e
    obtain ⟨hdot, hnodup, hwt, hwes⟩ := wfEs_cons hwf
    unfold setEntry
    by_cases hk : k0 = k
    · subst hk
      have ht0 : t0 = JTree.leaf v0 := by
        rcases List.mem_cons.mp hm with h1 | h2
        · obtain ⟨-, ht⟩ := Prod.mk.injEq .. ▸ h1
          exact ht.symm
        · exact absurd (List.mem_map_of_mem Prod.fst h2) hnodup
      subst ht0
      rw [if_pos rfl]
      simp [flattenEs, flattenT]
    · rw [if_neg hk]
      have hm' : (k, JTree.leaf v0) ∈ es := by
        rcases List.mem_cons.mp hm with h1 | h2
        · obtain ⟨hk', -⟩ := Prod.mk.injEq .. ▸ h1
          exact absurd hk'.symm hk
        · exact h2
      simp only [flattenEs, List.map_append]
      rw [ih hwes hm']

theorem flattenEs_setAtEs {es : List (String × JTree)} {k : String} {t : JTree}
    {rest : List String} {key : String} {v : JValue}
    (hwf : wfEs es = true) (hm : (k, t) ∈ es)
    (hrec : (flattenT (setAt t rest key v)).map Prod.fst = (flattenT t).map Prod.fst) :
    (flattenEs (setAtEs es k rest key v)).map Prod.fst = (flattenEs es).map Prod.fst := by
  induction es with
  | nil => simp at hm
  | cons e es ih =>
    obtain ⟨k0, t0⟩ := e
    obtain ⟨hdot, hnodup, hwt, hwes⟩ := wfEs_cons hwf
    unfold setAtEs
    by_cases hk : k0 = k
    · subst hk
      have ht0 : t0 = t := by
        rcases List.mem_cons.mp hm with h1 | h2
        · obtain ⟨-, ht⟩ := Prod.mk.injEq .. ▸ h1
          exact ht.symm
        · exact absurd (List.mem_map_of_mem Prod.fst h2) hnodup
      subst ht0
      rw [if_pos rfl]
      simp only [flattenEs, List.map_append]
      rw [map_fst_map_consKey hrec]
    · rw [if_neg hk]
      have hm' : (k, t) ∈ es := by
        rcases List.mem_cons.mp hm with h1 | h2
        · obtain ⟨hk', -⟩ := Prod.mk.injEq .. ▸ h1
          exact absurd hk'.symm hk
        · exact h2
      simp only [flattenEs, List.map_append]
      rw [ih hwes hm']

theorem setAt_node_flatten_fst {segs : List String} :
    ∀ {es : List (String × JTree)} {v0 v : JValue}, wfEs es = true →
    (segs, v0) ∈ flattenEs es →
    ∃ es2, setAt (JTree.node es) segs.dropLast (segs.getLastD "") v = JTree.node es2 ∧
      (flattenEs es2).map Prod.fst = (flattenEs es).map Prod.fst := by
  induction segs with
  | nil =>
    intro es v0 v _ h
    rcases mem_flattenEs.mp h with ⟨k, t, rest, -, hseg, -⟩
    exact absurd hseg (by simp)
  | cons k rest ih =>
    intro es v0 v hwf h
    rcases mem_flattenEs.mp h with ⟨k', t, rest', hm, hseg, hmt⟩
    obtain ⟨hk, hrest⟩ := List.cons.injEq .. ▸ hseg
    subst hk; subst hrest
    cases rest with
    | nil =>
      have ht : t = JTree.leaf v0 := mem_flattenT_nil.mp hmt
      subst ht
      exact ⟨setEntry es k (JTree.leaf v), rfl, flattenEs_setEntry_leaf hwf hm⟩
    | cons r rs =>
      have hne : (r :: rs : List String) ≠ [] := by simp
      rcases mem_flattenT_node hmt hne with ⟨es2, ht, hmt2⟩
      subst ht
      have hwt := (wf_of_mem hwf hm).1
      unfold wfT at hwt
      rcases ih hwt hmt2 with ⟨es3, hset, hfst⟩
      refine ⟨setAtEs es k ((r :: rs).dropLast) ((r :: rs).getLastD "") v, ?_, ?_⟩
      · rw [List.dropLast_cons₂]
        rfl
      · have hrec : (flattenT (setAt (JTree.node es2) ((r :: rs).dropLast)
              ((r :: rs).getLastD "") v)).map Prod.fst
            = (flattenT (JTree.node es2)).map Prod.fst := by
          rw [hset]
          simp only [flattenT]
          exact hfst
        exact flattenEs_setAtEs hwf hm hrec

theorem ne_nil_of_mem_flattenEs {es : List (String × JTree)} {segs : List String} {v : JValue}
    (h : (segs, v) ∈ flattenEs es) : segs ≠ [] := by
  rcases mem_flattenEs.mp h with ⟨k, t, rest, -, hseg, -⟩
  rw [hseg]
  simp

theorem flatten_map_fst (es : List (String × JTree)) :
    (flatten es).map Prod.fst = ((flattenEs es).map Prod.fst).map dotJoin := by
  unfold flatten
  rw [List.map_map, List.map_map]
  rfl

theorem mem_flatten_fst {es : List (String × JTree)} {fk : String} :
    fk ∈ (flatten es).map Prod.fst ↔
      ∃ segs v, (segs, v) ∈ flattenEs es ∧ fk = dotJoin segs := by
  unfold flatten
  rw [List.map_map]
  constructor
  · intro h
    rcases List.mem_map.mp h with ⟨⟨segs, v⟩, hm, heq⟩
    exact ⟨segs, v, hm, heq.symm⟩
  · rintro ⟨segs, v, hm, heq⟩
    exact List.mem_map.mpr ⟨(segs, v), hm, heq.symm⟩

/-- Central helper for the consistency invariant: a `set` whose flattened key
is an existing leaf path of a well-formed tree succeeds, replaces that leaf,
and preserves the key lists of both views. -/
theorem set_opt_leaf_path {p : OptionsParser} {f : List (String × JValue)} {fk : String}
    {v : JValue}
    (hf : p.flattened = some f)
    (hwf : wfEs p.config = true)
    (hk : fk ∈ (flatten p.config).map Prod.fst) :
    ∃ es2, set_opt p fk v = some
        { config := es2, flattened := some (setEntry f fk v),
          env_pfx := p.env_pfx, config_file_path := p.config_file_path } ∧
      (flattenEs es2).map Prod.fst = (flattenEs p.config).map Prod.fst := by
  rcases mem_flatten_fst.mp hk with ⟨segs, v0, hmemEs, hfkeq⟩
  have hne : segs ≠ [] := ne_nil_of_mem_flattenEs hmemEs
  have hnodot : ∀ s ∈ segs, '.' ∉ s.data := noDot_of_mem_flattenEs hwf hmemEs
  have hsplit : dotSplit fk = segs := by
    rw [hfkeq]
    exact dotSplit_dotJoin hne hnodot
  rcases walk_dropLast_of_mem hwf hmemEs with ⟨es', hwalk⟩
  rcases setAt_node_flatten_fst hwf hmemEs (v := v) with ⟨es2, hset, hfst⟩
  refine ⟨es2, ?_, hfst⟩
  simp only [set_opt, hsplit, hwalk, hset, flattened_config, hf]

/-! ### The verifier's fold -/

theorem verify_fold (f : List (String × JValue)) (b : Bool) (ws : List String) :
    f.foldl
        (fun (acc : Bool × List String) kv =>
          if kv.2 = JValue.vstr "" then (false, acc.2 ++ [kv.1 ++ " is empty."]) else acc)
        (b, ws)
      = (b && (f.filter (fun kv => decide (kv.2 = JValue.vstr ""))).isEmpty,
         ws ++ (f.filter (fun kv => decide (kv.2 = JValue.vstr ""))).map
            (fun kv => kv.1 ++ " is empty.")) := by
  induction f generalizing b ws with
  | nil => simp
  | cons kv f ih =>
    by_cases h : kv.2 = JValue.vstr ""
    · simp only [List.foldl_cons, if_pos h, List.filter_cons, h, decide_True, if_pos]
      rw [ih]
      simp
    · simp only [List.foldl_cons, if_neg h, List.filter_cons, h, decide_False,
        Bool.false_eq_true, if_neg]
      rw [ih]
      simp

/-! ### Totality of single-segment sets and of the environment step -/

theorem set_opt_single {p : OptionsParser} {k : String} {v : JValue} (h : '.' ∉ k.data) :
    ∃ p', set_opt p k v = some p' := by
  have hsplit : dotSplit k = [k] := dotSplit_noDot h
  simp only [set_opt, hsplit, List.dropLast_single]
  simp only [walk, flattened_config]
  cases hf : p.flattened with
  | none => exact ⟨_, rfl⟩
  | some f => exact ⟨_, rfl⟩

theorem foldl_env_total (env : String → Option String) :
    ∀ (l : List String) (q : OptionsParser), (∀ k ∈ l, '.' ∉ k.data) →
    ∃ q', List.foldlM
        (fun q k =>
          match env (envVarName q.env_pfx k) with
          | none => some q
          | some v => set_opt q k (.vstr v))
        q l = some q' := by
  intro l
  induction l with
  | nil => intro q _; exact ⟨q, rfl⟩
  | cons k l ih =>
    intro q h
    have hk := h k (List.mem_cons_self _ _)
    have htail := fun x hx => h x (List.mem_cons_of_mem _ hx)
    cases he : env (envVarName q.env_pfx k) with
    | none =>
      rcases ih q htail with ⟨q', hq⟩
      exact ⟨q', by rw [List.foldlM_cons]; simp [he, hq]⟩
    | some v =>
      rcases set_opt_single (p := q) (v := JValue.vstr v) hk with ⟨q1, hq1⟩
      rcases ih q1 htail with ⟨q', hq⟩
      exact ⟨q', by rw [List.foldlM_cons]; simp [he, hq1, hq]⟩

/-! ### A source that supplies no values leaves the store untouched -/

theorem foldl_skip_env (env : String → Option String) (p : OptionsParser) :
    ∀ (l : List String), (∀ k ∈ l, env (envVarName p.env_pfx k) = none) →
    List.foldlM
        (fun q k =>
          match env (envVarName q.env_pfx k) with
          | none => some q
          | some v => set_opt q k (.vstr v))
        p l = some p := by
  intro l
  induction l with
  | nil => intro _; rfl
  | cons k l ih =>
    intro h
    rw [List.foldlM_cons]
    simp [h k (List.mem_cons_self _ _), ih (fun x hx => h x (List.mem_cons_of_mem _ hx))]

theorem read_environment_no_values (p : OptionsParser) (env : String → Option String)
    (h : ∀ k ∈ p.config.map Prod.fst, env (envVarName p.env_pfx k) = none) :
    read_environment p env = some p :=
  foldl_skip_env env p (p.config.map Prod.fst) h

theorem foldl_skip_argv (argv : String → Option String) (q0 : OptionsParser) :
    ∀ (l : List String), (∀ k ∈ l, argv k = none) →
    List.foldlM
        (fun q k =>
          match argv k with
          | none => some q
          | some v => set_opt q k (.vstr v))
        q0 l = some q0 := by
  intro l
  induction l with
  | nil => intro _; rfl
  | cons k l ih =>
    intro h
    rw [List.foldlM_cons]
    simp [h k (List.mem_cons_self _ _), ih (fun x hx => h x (List.mem_cons_of_mem _ hx))]

theorem read_args_no_values (p : OptionsParser) (argv : String → Option String)
    (h : ∀ k ∈ (flattened_config p).1.map Prod.fst, argv k = none) :
    read_args p argv = some (flattened_config p).2 := by
  rcases hfc : flattened_config p with ⟨f, p1⟩
  rw [hfc] at h
  simp only [read_args, hfc]
  exact foldl_skip_argv argv p1 (f.map Prod.fst) h

/-! ### The file step's loop drops exactly the empty-string pairs -/

theorem applyFilePairs_filter :
    ∀ (l : List (String × JValue)) (p : OptionsParser),
    applyFilePairs p l
      = applyFilePairs p (l.filter (fun kv => !decide (kv.2 = JValue.vstr ""))) := by
  intro l
  induction l with
  | nil => intro p; rfl
  | cons kv l ih =>
    intro p
    obtain ⟨k, v⟩ := kv
    by_cases h : v = JValue.vstr ""
    · simp only [applyFilePairs, if_pos h, List.filter_cons, h, decide_True, Bool.not_true,
        Bool.false_eq_true, if_neg]
      exact ih p
    · simp only [applyFilePairs, if_neg h, List.filter_cons, h, decide_False, Bool.not_false,
        if_pos]
      cases hs : set_opt p k v with
      | some p' =>
        simp only [applyFilePairs, if_neg h, hs]
        exact ih p'
      | none =>
        simp only [applyFilePairs, if_neg h, hs]
        simp

/-! ### Concrete fixtures used to evaluate the model -/

/-- A lookup that finds nothing (no environment variables / no flags given). -/
def noneLookup : String → Option String := fun _ => none

/-- An environment defining exactly `APP_DB_HOST=localhost`. -/
def sampleEnv1 : String → Option String :=
  fun n => if n = "APP_DB_HOST" then some "localhost" else none

/-- A parser for the nested schema `{db: {host: ""}}` with prefix `APP`. -/
def P1 : OptionsParser :=
  { config := [("db", JTree.node [("host", JTree.leaf (JValue.vstr ""))])],
    flattened := none, env_pfx := "APP", config_file_path := "./config.yaml" }

/-- A parser for the schema `{db: {host: ""}, other: ""}` with prefix `APP`. -/
def P2 : OptionsParser :=
  { config := [("db", JTree.node [("host", JTree.leaf (JValue.vstr ""))]),
               ("other", JTree.leaf (JValue.vstr ""))],
    flattened := none, env_pfx := "APP", config_file_path := "./config.yaml" }

/-- An environment defining exactly `APP_DB=x`. -/
def env2 : String → Option String := fun n => if n = "APP_DB" then some "x" else none

/-- An argument vector supplying exactly `--db_host y` (destination `db.host`). -/
def argv2 : String → Option String := fun n => if n = "db.host" then some "y" else none

/-- A configuration-file document `{other: "z"}`. -/
def doc2 : List (String × JTree) := [("other", JTree.leaf (JValue.vstr "z"))]

/-- `P1` after its flattened view has been computed and cached. -/
def P4 : OptionsParser :=
  { config := [("db", JTree.node [("host", JTree.leaf (JValue.vstr ""))])],
    flattened := some [("db.host", JValue.vstr "")],
    env_pfx := "APP", config_file_path := "./config.yaml" }

/-- A parser for the flat schema `{a: ""}`. -/
def P5 : OptionsParser :=
  { config := [("a", JTree.leaf (JValue.vstr ""))],
    flattened := none, env_pfx := "APP", config_file_path := "./config.yaml" }

/-- A parser for the flat schema `{c: ""}`. -/
def P7 : OptionsParser :=
  { config := [("c", JTree.leaf (JValue.vstr ""))],
    flattened := none, env_pfx := "APP", config_file_path := "./config.yaml" }

/-- A configuration-file document `{a: {b: "v"}, c: "w"}` whose first flattened
key `a.b` does not resolve in `P7`'s schema. -/
def doc7 : List (String × JTree) :=
  [("a", JTree.node [("b", JTree.leaf (JValue.vstr "v"))]), ("c", JTree.leaf (JValue.vstr "w"))]

/-! ### Claims -/

/-- Claim C1, evaluated at the input where the code contradicts it: with
schema `{db: {host: ""}}`, prefix `APP`, the environment variable
`APP_DB_HOST` (exactly the documented name for key `db.host`) defined as
`localhost`, an empty configuration file and no arguments, `read()` leaves
`flat["db.host"]` at the empty-string sentinel and verification fails with a
warning — the environment value, though supplied by the highest-priority
source that supplied anything, never reaches the store, because
`_read_environment` iterates only the top-level keys of the unflattened tree
(`Object.keys(this._config)`), contradicting its own documentation comment. -/
theorem c1_env_bug_eval :
    (read P1 FileResult.empty sampleEnv1 noneLookup).map
        (fun r => (r.1.flattened, r.2.1, r.2.2))
      = some (some [("db.host", JValue.vstr "")], false, ["db.host is empty."])
    ∧ envVarName "APP" "db.host" = "APP_DB_HOST"
    ∧ sampleEnv1 "APP_DB_HOST" = some "localhost" :=
  ⟨rfl, rfl, rfl⟩

/-- Claim C9, evaluated at the input where the code contradicts it: the
environment step on schema `{db: {host: ""}}` consults only the variable for
the top-level key `db` (`APP_DB`), never `APP_DB_HOST`, so a defined
`APP_DB_HOST=localhost` leaves the store completely unchanged, although the
source's doc comment promises variables named after flattened key paths. -/
theorem c9_env_toplevel_only :
    read_environment P1 sampleEnv1 = some P1
    ∧ envVarName "APP" "db.host" = "APP_DB_HOST"
    ∧ sampleEnv1 "APP_DB_HOST" = some "localhost"
    ∧ (P1.config.map Prod.fst).map (envVarName "APP") = ["APP_DB"] :=
  ⟨rfl, rfl, rfl, rfl⟩

/-- Claim C6: when reading the configuration file throws (absent, unreadable,
or failing to parse), the file step warns, contributes no pairs, and returns
the `OptionsParser` state — both the nested tree and the flattened view —
exactly as it was; no failure propagates (the step is total). -/
theorem c6_file_error_untouched :
    ∀ p : OptionsParser, read_config_file p FileResult.err = (p, true) :=
  fun _ => rfl

/-- Claim C10: when the file read yields an `undefined` document (e.g. an
empty file), the file step returns immediately: the state — both views — is
unchanged and, unlike the error case, no warning is emitted. -/
theorem c10_empty_doc_noop :
    ∀ p : OptionsParser, read_config_file p FileResult.empty = (p, false) :=
  fun _ => rfl

/-- Claim C3: the verifier walks the flattened view in order, treats an entry
as unset exactly when its value equals the empty-string sentinel, emits one
warning per unset entry naming its dotted key (`"<key> is empty."`), in
order, and its boolean is `true` exactly when no entry is unset. -/
theorem c3_verify_characterization :
    ∀ p : OptionsParser,
    (verify_config p).2.2
        = ((flattened_config p).1.filter (fun kv => decide (kv.2 = JValue.vstr ""))).map
            (fun kv => kv.1 ++ " is empty.")
    ∧ ((verify_config p).2.1 = true ↔
        (flattened_config p).1.filter (fun kv => decide (kv.2 = JValue.vstr "")) = []) := by
  intro p
  rcases hfc : flattened_config p with ⟨f, p1⟩
  simp only [verify_config, hfc]
  rw [verify_fold]
  constructor
  · simp
  · simp [List.isEmpty_iff]

/-- Claim C8: `_set_option` fails (throws, modelled as `none`, mutating
neither view and creating no new nesting levels) exactly when walking the
intermediate path segments of the flattened key does not end at an existing
object node of the tree. -/
theorem c8_set_lookup_failure :
    ∀ (p : OptionsParser) (fk : String) (v : JValue),
    set_opt p fk v = none ↔
      ∀ es, walk (JTree.node p.config) ((dotSplit fk).dropLast) ≠ some (JTree.node es) := by
  intro p fk v
  simp only [set_opt]
  cases hw : walk (JTree.node p.config) ((dotSplit fk).dropLast) with
  | none =>
    constructor
    · intro _ es heq
      exact Option.noConfusion heq
    · intro _
      rfl
  | some t =>
    cases t with
    | leaf v0 =>
      constructor
      · intro _ es heq
        exact JTree.noConfusion (Option.some.inj heq)
      · intro _
        rfl
    | node es =>
      constructor
      · intro hcontra
        exact Option.noConfusion hcontra
      · intro h
        exact absurd rfl (h es)

/-- Claim C2, refuted as stated: an input on which `read()` does not reach
the verifier. The file sets `other`, which caches the flattened view; the
environment then overwrites the whole `db` subtree with a scalar (top-level
key iteration); the argument step then applies `db.host`, whose parent
segment no longer resolves to an object, and the resulting lookup failure
propagates out of `read()` (modelled as `none`): the argument step does not
fully complete and the verifier is skipped. -/
theorem c2_counterexample :
    read P2 (FileResult.doc doc2) env2 argv2 = none := rfl

/-- Claim C2 (amended): `read()` is exactly the sequential composition — the
file step, whose resulting state feeds the environment step, whose resulting
state feeds the argument step, whose resulting state the verifier inspects to
produce the returned boolean; the file step is total, and the environment
step always completes normally whenever the top-level keys of the tree it
sees are dot-free; only a lookup failure in the argument step can skip the
verifier, in which case the failure propagates to the caller. -/
theorem c2_amended :
    ∀ (p : OptionsParser) (fr : FileResult) (env argv : String → Option String),
    read p fr env argv =
      (read_environment (read_config_file p fr).1 env).bind (fun pe =>
        (read_args pe argv).map (fun pa => verify_config pa))
    ∧ ((∀ k ∈ (read_config_file p fr).1.config.map Prod.fst, '.' ∉ k.data) →
        ∃ pe, read_environment (read_config_file p fr).1 env = some pe) := by
  intro p fr env argv
  constructor
  · cases hre : read_environment (read_config_file p fr).1 env with
    | none => simp only [read, hre, Option.none_bind]
    | some pe =>
      cases hra : read_args pe argv with
      | none => simp only [read, hre, hra, Option.some_bind, Option.map_none']
      | some pa => simp only [read, hre, hra, Option.some_bind, Option.map_some']
  · intro h
    exact foldl_env_total env _ _ h

/-- Claim C2's amended theorem applied at a concrete input (empty file, one
environment variable, no arguments), with the dot-free hypothesis discharged
by evaluation. -/
theorem c2_amended_witness :
    read P1 FileResult.empty sampleEnv1 noneLookup =
      (read_environment (read_config_file P1 FileResult.empty).1 sampleEnv1).bind (fun pe =>
        (read_args pe noneLookup).map (fun pa => verify_config pa))
    ∧ ∃ pe, read_environment (read_config_file P1 FileResult.empty).1 sampleEnv1 = some pe :=
  ⟨(c2_amended P1 FileResult.empty sampleEnv1 noneLookup).1,
   (c2_amended P1 FileResult.empty sampleEnv1 noneLookup).2 (by decide)⟩

/-- Claim C4, refuted as stated: a single `set` with the existing non-leaf
key `db` (after the flattened view has been cached) succeeds, replaces the
whole `db` subtree by a scalar in the nested tree, and leaves the stale leaf
key `db.host` in the flattened view alongside the new `db` — so the
flattened key set `["db.host", "db"]` differs from the tree's leaf-path set
`["db"]`. -/
theorem c4_counterexample :
    (set_opt P4 "db" (JValue.vstr "x")).map
        (fun p' => ((p'.flattened.getD []).map Prod.fst, (flatten p'.config).map Prod.fst))
      = some (["db.host", "db"], ["db"])
    ∧ (["db.host", "db"] : List String) ≠ ["db"] :=
  ⟨rfl, by decide⟩

/-- Claim C4 (amended): on a well-formed tree (distinct, dot-free keys at
every node), a `set` whose flattened key is an existing leaf path of the
nested tree succeeds, writes the value into both the nested tree and the
cached flattened view under that same key, and preserves the key set (indeed
the key list) of both views — so a cached flattened view with the tree's
leaf-path key list keeps exactly that key list. Sets whose key names an
interior node (or a fresh top-level key) are the ones that break the claim
as originally stated. -/
theorem c4_amended (p : OptionsParser) (f : List (String × JValue)) (fk : String) (v : JValue)
    (hf : p.flattened = some f)
    (hcon : f.map Prod.fst = (flatten p.config).map Prod.fst)
    (hwf : wfEs p.config = true)
    (hk : fk ∈ (flatten p.config).map Prod.fst) :
    ∃ p', set_opt p fk v = some p'
      ∧ p'.flattened = some (setEntry f fk v)
      ∧ (setEntry f fk v).map Prod.fst = (flatten p'.config).map Prod.fst := by
  rcases set_opt_leaf_path (v := v) hf hwf hk with ⟨es2, hset, hfst⟩
  refine ⟨_, hset, rfl, ?_⟩
  have h1 : (setEntry f fk v).map Prod.fst = f.map Prod.fst :=
    setEntry_map_fst_of_mem (by rw [hcon]; exact hk)
  rw [h1, hcon, flatten_map_fst, flatten_map_fst, hfst]

/-- Claim C4's amended theorem applied to the cached parser `P4` at its leaf
key `db.host`, with all hypotheses discharged by evaluation. -/
theorem c4_amended_witness :
    ∃ p', set_opt P4 "db.host" (JValue.vstr "x") = some p'
      ∧ p'.flattened = some (setEntry [("db.host", JValue.vstr "")] "db.host" (JValue.vstr "x"))
      ∧ (setEntry [("db.host", JValue.vstr "")] "db.host" (JValue.vstr "x")).map Prod.fst
          = (flatten p'.config).map Prod.fst :=
  c4_amended P4 [("db.host", JValue.vstr "")] "db.host" (JValue.vstr "x")
    rfl (by decide) (by decide) (by decide)

/-- Claim C5, refuted as stated: the file reader applies pairs whose keys are
outside the schema. With schema `{a: ""}` (flattened key set `["a"]`) and a
file document `{b: "v"}`, the file step applies the out-of-schema key `b`,
which ends up in both the nested tree and the flattened view. -/
theorem c5_counterexample :
    (flatten P5.config).map Prod.fst = ["a"]
    ∧ (read_config_file P5 (FileResult.doc [("b", JTree.leaf (JValue.vstr "v"))])).1.flattened
        = some [("a", JValue.vstr ""), ("b", JValue.vstr "v")]
    ∧ "b" ∉ (["a"] : List String) :=
  ⟨rfl, rfl, by decide⟩

/-- Claim C5 (amended): the environment and argument readers only consult
their respective key sets (top-level tree keys; current flattened keys), and
any source that supplies no value for the keys it consults emits no pair and
leaves the store untouched — the environment step returns the state
unchanged, and the argument step changes the state only by the getter's
caching of the flattened view. (The file reader, by contrast, applies every
non-empty pair of the flattened file document whether or not its key is in
the schema.) -/
theorem c5_amended :
    (∀ (p : OptionsParser) (env : String → Option String),
      (∀ k ∈ p.config.map Prod.fst, env (envVarName p.env_pfx k) = none) →
      read_environment p env = some p)
    ∧ (∀ (p : OptionsParser) (argv : String → Option String),
      (∀ k ∈ (flattened_config p).1.map Prod.fst, argv k = none) →
      read_args p argv = some (flattened_config p).2) :=
  ⟨read_environment_no_values, read_args_no_values⟩

/-- Claim C5's amended theorem applied at concrete inputs: with no
environment variables and no argument flags, both steps leave `P1` untouched
(up to the argument step's caching of the flattened view). -/
theorem c5_amended_witness :
    read_environment P1 noneLookup = some P1
    ∧ read_args P1 noneLookup = some (flattened_config P1).2 :=
  ⟨c5_amended.1 P1 noneLookup (by decide),
   c5_amended.2 P1 noneLookup (by decide)⟩

/-- Claim C7, refuted in its "every pair with a non-empty value is applied"
part: with schema `{c: ""}` and file document `{a: {b: "v"}, c: "w"}`, the
pair `("a.b", "v")` fails to resolve, the thrown lookup error is caught by
the file step's `catch`, and the later non-empty pair `("c", "w")` is never
applied — `c` remains the sentinel. -/
theorem c7_counterexample :
    read_config_file P7 (FileResult.doc doc7) = (P7, true)
    ∧ ("c", JValue.vstr "w") ∈ flatten doc7
    ∧ JValue.vstr "w" ≠ JValue.vstr ""
    ∧ getEntry (flattened_config (read_config_file P7 (FileResult.doc doc7)).1).1 "c"
        = some (JValue.vstr "") :=
  ⟨rfl, by decide, by decide, rfl⟩

/-- Claim C7 (amended): the file step on a parsed document is exactly the
application of the flattened document's pairs with every empty-string-valued
pair dropped (so a key present only in the file with value `""` keeps the
sentinel and is later reported unset by the verifier); the remaining pairs
are applied left to right, each successful application feeding the next, but
a pair whose key fails to resolve aborts the step with a warning, keeping
the pairs applied so far and dropping the rest — only when no pair fails is
every non-empty pair applied. -/
theorem c7_amended :
    (∀ (p : OptionsParser) (es : List (String × JTree)),
      read_config_file p (FileResult.doc es)
        = applyFilePairs p ((flatten es).filter (fun kv => !decide (kv.2 = JValue.vstr ""))))
    ∧ (∀ (q : OptionsParser) (k : String) (v : JValue) (rest : List (String × JValue)),
        v ≠ JValue.vstr "" →
        (∀ q', set_opt q k v = some q' →
            applyFilePairs q ((k, v) :: rest) = applyFilePairs q' rest)
        ∧ (set_opt q k v = none → applyFilePairs q ((k, v) :: rest) = (q, true))) := by
  constructor
  · intro p es
    exact applyFilePairs_filter (flatten es) p
  · intro q k v rest hv
    constructor
    · intro q' hq'
      simp only [applyFilePairs, if_neg hv, hq']
    · intro hnone
      simp only [applyFilePairs, if_neg hv, hnone]

/-- Claim C7's amended theorem applied at concrete inputs: the filter
equation at `P7` with the document `{db: {host: ""}}` (whose only pair is
empty-valued and hence dropped), and the abort equation at the unresolvable
pair `("a.b", "v")`. -/
theorem c7_amended_witness :
    read_config_file P7 (FileResult.doc [("db", JTree.node [("host", JTree.leaf (JValue.vstr ""))])])
      = applyFilePairs P7
          ((flatten [("db", JTree.node [("host", JTree.leaf (JValue.vstr ""))])]).filter
            (fun kv => !decide (kv.2 = JValue.vstr "")))
    ∧ applyFilePairs P7 [("a.b", JValue.vstr "v")] = (P7, true) :=
  ⟨c7_amended.1 P7 [("db", JTree.node [("host", JTree.leaf (JValue.vstr ""))])],
   (c7_amended.2 P7 "a.b" (JValue.vstr "v") [] (by decide)).2 rfl⟩

end OptionsParserModel
